import Mathlib

/-!
Verification of the embedded-database session core (`src/utils/pgliteConfig.ts`):
statement classification, affected-entity extraction, `executeQuery` routing and
retry loops, the pending-transaction queue, the change broadcaster, database
initialization, and the patient-table bootstrap.

Statement text is modelled as `List Char`; JavaScript `toLowerCase`, `trim`,
`startsWith` and the entity-extraction regular expression are modelled by
explicit list functions.  Stateful code is modelled either by explicit state
passing (deterministic runs) or by a small-step relation on an explicit queue
state (for the concurrency claims).
-/

namespace Pglite

/-! ## String model: lowercasing, trimming, prefix tests -/

/-- Model of JavaScript `String.prototype.toLowerCase` (ASCII fragment),
applied characterwise. -/
def lowerChars (l : List Char) : List Char := l.map Char.toLower

/-- Model of JavaScript `String.prototype.trim`: remove leading and trailing
whitespace. -/
def trimChars (l : List Char) : List Char :=
  ((l.dropWhile Char.isWhitespace).reverse.dropWhile Char.isWhitespace).reverse

/-- Source `isModifyingQuery` (pgliteConfig.ts lines 254-265): lowercase the
query, trim it, and test the seven mutating statement keywords with
`startsWith`, in the source's order. -/
def isModifyingQuery (query : List Char) : Bool :=
  let lowerQuery := trimChars (lowerChars query)
  ("insert".toList.isPrefixOf lowerQuery) ||
  ("update".toList.isPrefixOf lowerQuery) ||
  ("delete".toList.isPrefixOf lowerQuery) ||
  ("create".toList.isPrefixOf lowerQuery) ||
  ("alter".toList.isPrefixOf lowerQuery) ||
  ("drop".toList.isPrefixOf lowerQuery) ||
  ("truncate".toList.isPrefixOf lowerQuery)

/-- The seven mutating keywords named by the specification, in the
specification's order. -/
def modifyingKeywords : List (List Char) :=
  ["insert".toList, "update".toList, "delete".toList, "create".toList,
   "alter".toList, "drop".toList, "truncate".toList]

/-- Classification as worded by the specification: a statement is mutating if,
after trimming and lowercasing, it begins with one of the seven keywords. -/
def specIsModifying (query : List Char) : Bool :=
  let normalized := lowerChars (trimChars query)
  modifyingKeywords.any (fun p => p.isPrefixOf normalized)

/-! ## `executeQuery` routing (pgliteConfig.ts lines 270-307) -/

/-- The options object accepted by `executeQuery`. -/
structure ExecOptions where
  skipQueue : Option Bool
  retries : Option Int
  broadcastTable : Option (List Char)

/-- Truthiness of `config?.skipQueue`. -/
def wantsSkipQueue (config : Option ExecOptions) : Bool :=
  match config with
  | none => false
  | some c => c.skipQueue.getD false

/-- The two control paths of `executeQuery`. -/
inductive ExecRoute where
  | fastRead
  | queued
deriving DecidableEq

/-- Source routing decision (line 289): the fast path is taken exactly when
`config?.skipQueue` is truthy and the statement is not classified mutating;
every other call is appended to the pending-transaction queue. -/
def executeQueryRoute (config : Option ExecOptions) (query : List Char) : ExecRoute :=
  if wantsSkipQueue config && !isModifyingQuery query then .fastRead else .queued

/-! ## Affected-entity extraction (pgliteConfig.ts lines 461-465)

The source lowercases the statement and applies the regular expression
`from\s+([^\s,;)]+)|into\s+([^\s,;)]+)|update\s+([^\s,;)]+)` with leftmost-match
semantics, returning the captured group of the first position at which one of
the three alternatives matches. -/

/-- Characters that terminate the captured entity token: the regular
expression's negated class contains whitespace, comma, semicolon and a closing
parenthesis. -/
def isTokenBreak (c : Char) : Bool :=
  c.isWhitespace || c == ',' || c == ';' || c == ')'

/-- One alternative of the regular expression, anchored at the head of `l`:
the keyword, then at least one whitespace character, then a non-empty run of
non-break characters (the captured group). -/
def matchKeywordAt (kw : List Char) (l : List Char) : Option (List Char) :=
  if kw.isPrefixOf l then
    let afterKw := l.drop kw.length
    let ws := afterKw.takeWhile Char.isWhitespace
    if ws.isEmpty then none
    else
      let tok := (afterKw.drop ws.length).takeWhile (fun c => !isTokenBreak c)
      if tok.isEmpty then none else some tok
  else none

/-- The three alternatives tried in the source's order at one position. -/
def matchTablePatternAt (l : List Char) : Option (List Char) :=
  match matchKeywordAt "from".toList l with
  | some t => some t
  | none =>
    match matchKeywordAt "into".toList l with
    | some t => some t
    | none => matchKeywordAt "update".toList l

/-- Leftmost-match scan: try the pattern at each successive position. -/
def scanForTable : List Char → Option (List Char)
  | [] => none
  | c :: rest =>
    match matchTablePatternAt (c :: rest) with
    | some t => some t
    | none => scanForTable rest

/-- Source `getAffectedTable`: lowercase the query, then run the leftmost scan. -/
def getAffectedTable (query : List Char) : Option (List Char) :=
  scanForTable (lowerChars query)

/-- Specification-side description of the heuristic: the earliest index of the
lowercased text at which one of the three keyword patterns matches yields the
token; if no index matches, the result is none. -/
def specAffectedTable (query : List Char) : Option (List Char) :=
  let l := lowerChars query
  (List.range l.length).findSome? (fun i => matchTablePatternAt (l.drop i))

/-! ## Retry loops of `executeQuery` (pgliteConfig.ts lines 289-336)

An attempt's outcome (the awaited `dbPromise` plus `db.query`) is supplied by
an environment `env : Int → Except ε α` indexed by the attempt number.  The
events of a run (attempt made, backoff delay awaited, change broadcast) are
collected in a trace. -/

/-- Observable events of one `executeQuery` operation. -/
inductive QEv where
  | att (k : Int)
  | delay (ms : Int)
  | broadcast
deriving DecidableEq

/-- What the fast path finally throws: the stored `lastError`, or the generic
`Error("Query failed after retries")` when no attempt ever ran. -/
inductive Thrown (ε : Type) where
  | last (e : ε)
  | queryFailedAfterRetries
deriving DecidableEq

/-- `throw lastError || new Error("Query failed after retries")` (line 304). -/
def throwLast {ε α : Type} (lastError : Option ε) : Except (Thrown ε) α :=
  match lastError with
  | some e => .error (Thrown.last e)
  | none => .error Thrown.queryFailedAfterRetries

/-- Fast-path retry loop (lines 290-304): `for (attempt = 1; attempt <= retries;
attempt++)`, returning on success, storing `lastError` on failure and awaiting
`100 * 2 ^ (attempt - 1)` milliseconds when `attempt < retries`; after the loop
it throws `lastError || Error("Query failed after retries")`. -/
def fastLoop {ε α : Type} (retries attempt : Int) (lastError : Option ε)
    (env : Int → Except ε α) : List QEv × Except (Thrown ε) α :=
  if attempt ≤ retries then
    match env attempt with
    | .ok r => ([QEv.att attempt], .ok r)
    | .error e =>
      if attempt < retries then
        let t := fastLoop retries (attempt + 1) (some e) env
        (QEv.att attempt :: QEv.delay (100 * 2 ^ (attempt - 1).toNat) :: t.1, t.2)
      else
        let t := fastLoop retries (attempt + 1) (some e) env
        (QEv.att attempt :: t.1, t.2)
  else ([], throwLast lastError)
termination_by (retries + 1 - attempt).toNat
decreasing_by all_goals (simp_wf; omega)

/-- The fast path of `executeQuery` (read-only statement with `skipQueue`). -/
def executeQueryFast {ε α : Type} (retries : Int) (env : Int → Except ε α) :
    List QEv × Except (Thrown ε) α :=
  fastLoop retries 1 none env

/-- Queued-path operation body (lines 308-332): the same retry loop, but the
caller's promise is settled by `resolve` (after broadcasting when the statement
is mutating) or by `reject` at the final attempt; when the loop never runs the
promise is never settled (`none`). -/
def queuedLoop {ε α : Type} (retries attempt : Int) (isMod : Bool)
    (env : Int → Except ε α) : List QEv × Option (Except ε α) :=
  if attempt ≤ retries then
    match env attempt with
    | .ok r =>
      (QEv.att attempt :: (if isMod then [QEv.broadcast] else []), some (.ok r))
    | .error e =>
      if attempt < retries then
        let t := queuedLoop retries (attempt + 1) isMod env
        (QEv.att attempt :: QEv.delay (100 * 2 ^ (attempt - 1).toNat) :: t.1, t.2)
      else
        ([QEv.att attempt], some (.error e))
  else ([], none)
termination_by (retries + 1 - attempt).toNat
decreasing_by all_goals (simp_wf; omega)

/-- One pending operation of the queue. -/
structure QOp (ε α : Type) where
  retries : Int
  isMod : Bool
  env : Int → Except ε α

/-- Run one pending operation's body. -/
def runOp {ε α : Type} (op : QOp ε α) : List QEv × Option (Except ε α) :=
  queuedLoop op.retries 1 op.isMod op.env

/-- Sequential drain of the pending-transaction queue
(`processPendingTransactions`, lines 230-249): the head operation is awaited
under a catch-all, then processing continues with the rest. -/
def processQueue {ε α : Type} : List (QOp ε α) → List (List QEv × Option (Except ε α))
  | [] => []
  | op :: rest => runOp op :: processQueue rest

/-- The event trace the specification prescribes for a permanently failing
operation making `count` attempts numbered from `attempt`: a delay of
`100 * 2 ^ (attempt - 1)` milliseconds after every non-final attempt, and no
broadcast. -/
def backoffTraceAux : Nat → Int → List QEv
  | 0, _ => []
  | 1, attempt => [QEv.att attempt]
  | n + 2, attempt =>
    QEv.att attempt :: QEv.delay (100 * 2 ^ (attempt - 1).toNat) ::
      backoffTraceAux (n + 1) (attempt + 1)

/-- The specification's trace for a permanently failing operation with retry
budget `retries`: exactly `retries` attempts numbered from 1, with the backoff
delays between consecutive attempts. -/
def backoffTrace (retries : Int) : List QEv :=
  backoffTraceAux retries.toNat 1

/-- The backoff delays occurring in a trace, in order. -/
def delaysOf (t : List QEv) : List Int :=
  t.filterMap fun e => match e with | .delay ms => some ms | _ => none

/-- The number of attempts occurring in a trace. -/
def countAtt (t : List QEv) : Nat :=
  t.countP fun e => match e with | .att _ => true | _ => false

/-! ## Change broadcaster (pgliteConfig.ts lines 342-374)

`broadcastDatabaseChange` performs its three deliveries sequentially inside a
single try block whose catch logs and returns; the environment says whether the
channel handle is non-null and whether each delivery primitive would throw. -/

/-- Environment of one `broadcastDatabaseChange` call. -/
structure BroadcastEnv where
  channelOpen : Bool
  channelPostOk : Bool
  storageOk : Bool
  dispatchOk : Bool

/-- Which deliveries completed, and whether the call threw to its caller. -/
structure BroadcastResult where
  channelDelivered : Bool
  storageDelivered : Bool
  localDelivered : Bool
  raised : Bool
deriving DecidableEq

/-- Source `broadcastDatabaseChange`: inside one try block, post on the
channel when it is non-null, then write the shared-storage marker, then
dispatch the in-process custom event; the first throw aborts the remaining
deliveries and is swallowed by the catch. -/
def broadcastDatabaseChange (env : BroadcastEnv) : BroadcastResult :=
  if env.channelOpen && !env.channelPostOk then
    { channelDelivered := false, storageDelivered := false,
      localDelivered := false, raised := false }
  else if !env.storageOk then
    { channelDelivered := env.channelOpen, storageDelivered := false,
      localDelivered := false, raised := false }
  else if !env.dispatchOk then
    { channelDelivered := env.channelOpen, storageDelivered := true,
      localDelivered := false, raised := false }
  else
    { channelDelivered := env.channelOpen, storageDelivered := true,
      localDelivered := true, raised := false }

/-! ## initializeDatabase (pgliteConfig.ts lines 49-136)

The happy-path effects tracked are the memo guard, the per-asset fetch
counters, and the constructed connection handle. -/

/-- Module-level state read and written by `initializeDatabase`. -/
structure InitState where
  isInitialized : Bool
  dbInstance : Option Nat
  wasmFetches : Nat
  fsFetches : Nat
  nextHandle : Nat
deriving DecidableEq

/-- Module state at load. -/
def freshInitState : InitState := ⟨false, none, 0, 0, 0⟩

/-- Synchronous prefix of `initializeDatabase`: the guard
`if (isInitialized && dbInstance) return dbInstance`; when it does not return
early, both asset fetches are initiated, which is the first suspension point. -/
def initGuardAndFetch (s : InitState) : Option Nat × InitState :=
  match s.isInitialized, s.dbInstance with
  | true, some h => (some h, s)
  | _, _ =>
    (none, { s with wasmFetches := s.wasmFetches + 1, fsFetches := s.fsFetches + 1 })

/-- Remainder of `initializeDatabase` after the fetches resolve: construct the
connection, assign `dbInstance`, verify, mark `isInitialized`, and return the
handle. -/
def initCreateAndFinish (s : InitState) : InitState × Nat :=
  ({ s with dbInstance := some s.nextHandle, nextHandle := s.nextHandle + 1,
            isInitialized := true }, s.nextHandle)

/-- One complete, uninterleaved call to `initializeDatabase` (happy path). -/
def initializeDatabase (s : InitState) : InitState × Nat :=
  match initGuardAndFetch s with
  | (some h, s1) => (s1, h)
  | (none, s1) => initCreateAndFinish s1

/-- Two concurrent calls interleaved at the fetch suspension point: the first
call passes the guard and starts its fetches, then suspends; the second call
then runs its guard, which still sees an uninitialized module, and starts its
own fetches; each call then resumes and finishes in order. -/
def initializeDatabaseConcurrent (s : InitState) : InitState × Nat × Nat :=
  let (r1, s1) := initGuardAndFetch s
  let (r2, s2) := initGuardAndFetch s1
  let (s3, h1) := match r1 with
    | some h => (s2, h)
    | none => initCreateAndFinish s2
  let (s4, h2) := match r2 with
    | some h => (s3, h)
    | none => initCreateAndFinish s3
  (s4, h1, h2)

/-! ## initializePatientTable (pgliteConfig.ts lines 156-195) -/

/-- `initializePatientTable`, with the outcomes of its three awaited internal
statements (CREATE TABLE, the verification read, CREATE INDEX) supplied by
`env`: the statements run in order inside a try block; any rejection jumps to
the catch, which logs and returns `false`; otherwise the call returns `true`.
The result is an `Except` so that "never raises" is expressible. -/
def initializePatientTable {ε : Type} (env : Nat → Except ε Unit) : Except ε Bool :=
  match env 0 with
  | .error _ => .ok false
  | .ok _ =>
    match env 1 with
    | .error _ => .ok false
    | .ok _ =>
      match env 2 with
      | .error _ => .ok false
      | .ok _ => .ok true

end Pglite

namespace Pglite

/-! ## Lemmas: trimming commutes with lowercasing -/

theorem char_toNat_ofNat {n : Nat} (h : n < 55296) : (Char.ofNat n).toNat = n := by
  rw [Char.ofNat, dif_pos (Or.inl h)]
  rfl

theorem toLower_ne_of_ws {c w : Char} (hw : w.toNat < 65)
    (h : 65 ≤ c.toNat ∧ c.toNat ≤ 90) : Char.toLower c ≠ w := by
  intro e
  rw [Char.toLower, if_pos h] at e
  have := congrArg Char.toNat e
  rw [char_toNat_ofNat (by omega)] at this
  omega

theorem isWhitespace_toLower (c : Char) :
    (Char.toLower c).isWhitespace = c.isWhitespace := by
  by_cases h : 65 ≤ c.toNat ∧ c.toNat ≤ 90
  · have h1 : Char.toLower c ≠ ' ' := toLower_ne_of_ws (by decide) h
    have h2 : Char.toLower c ≠ '\t' := toLower_ne_of_ws (by decide) h
    have h3 : Char.toLower c ≠ '\r' := toLower_ne_of_ws (by decide) h
    have h4 : Char.toLower c ≠ '\n' := toLower_ne_of_ws (by decide) h
    have g1 : c ≠ ' ' := by rintro rfl; exact absurd h (by decide)
    have g2 : c ≠ '\t' := by rintro rfl; exact absurd h (by decide)
    have g3 : c ≠ '\r' := by rintro rfl; exact absurd h (by decide)
    have g4 : c ≠ '\n' := by rintro rfl; exact absurd h (by decide)
    simp [Char.isWhitespace, h1, h2, h3, h4, g1, g2, g3, g4]
  · rw [Char.toLower, if_neg h]

theorem lowerChars_trimChars (l : List Char) :
    lowerChars (trimChars l) = trimChars (lowerChars l) := by
  have hws : (Char.isWhitespace ∘ Char.toLower) = Char.isWhitespace := by
    funext c
    exact isWhitespace_toLower c
  unfold lowerChars trimChars
  rw [List.dropWhile_map, hws, ← List.map_reverse, List.dropWhile_map, hws,
    ← List.map_reverse]

/-- C7 helper: the source classification agrees with the specification's
wording for every statement. -/
theorem isModifyingQuery_eq_spec (q : List Char) :
    isModifyingQuery q = specIsModifying q := by
  unfold isModifyingQuery specIsModifying
  rw [← lowerChars_trimChars]
  simp [modifyingKeywords, Bool.or_assoc]

/-! ## Lemmas: the leftmost scan matches the index-based description -/

theorem scanForTable_eq_findSome (l : List Char) :
    scanForTable l = (List.range l.length).findSome? (fun i => matchTablePatternAt (l.drop i)) := by
  induction l with
  | nil => rfl
  | cons c rest ih =>
    rw [List.length_cons, List.range_succ_eq_map, List.findSome?_cons]
    cases h : matchTablePatternAt ((c :: rest).drop 0) with
    | some t => simp only [List.drop_zero] at h; simp [scanForTable, h]
    | none =>
      simp only [List.drop_zero] at h
      rw [List.findSome?_map]
      simp only [scanForTable, h, ih]
      congr 1

/-- C8 helper: `getAffectedTable` agrees with the specification's description
of the heuristic for every statement. -/
theorem getAffectedTable_eq_spec (q : List Char) :
    getAffectedTable q = specAffectedTable q := by
  unfold getAffectedTable specAffectedTable
  exact scanForTable_eq_findSome (lowerChars q)

end Pglite

namespace Pglite

/-! ## Lemmas: retry loops and queue drain -/


theorem fastLoop_exit {ε α : Type} (r a : Int) (lastError : Option ε)
    (env : Int → Except ε α) (h : ¬ a ≤ r) :
    fastLoop r a lastError env = ([], throwLast lastError) := by
  rw [fastLoop, if_neg h]

theorem fastLoop_fail {ε α : Type} (r : Int) (errF : Int → ε) (env : Int → Except ε α)
    (henv : ∀ k, env k = .error (errF k)) :
    ∀ (n : Nat) (a : Int) (lastError : Option ε), (r - a).toNat = n → 1 ≤ a → a ≤ r →
      fastLoop r a lastError env = (backoffTraceAux (n + 1) a, .error (Thrown.last (errF r))) := by
  intro n
  induction n with
  | zero =>
    intro a lastError hn h1 h2
    have ha : a = r := by omega
    subst ha
    rw [fastLoop, if_pos h2, henv a]
    simp only
    rw [if_neg (by omega : ¬ a < a), fastLoop_exit a (a + 1) _ env (by omega)]
    rfl
  | succ n ih =>
    intro a lastError hn h1 h2
    have hlt : a < r := by omega
    rw [fastLoop, if_pos h2, henv a]
    simp only
    rw [if_pos hlt, ih (a + 1) (some (errF a)) (by omega) (by omega) (by omega)]
    rfl



theorem queuedLoop_fail {ε α : Type} (r : Int) (isMod : Bool) (errF : Int → ε)
    (env : Int → Except ε α) (henv : ∀ k, env k = .error (errF k)) :
    ∀ (n : Nat) (a : Int), (r - a).toNat = n → 1 ≤ a → a ≤ r →
      queuedLoop r a isMod env = (backoffTraceAux (n + 1) a, some (.error (errF r))) := by
  intro n
  induction n with
  | zero =>
    intro a hn h1 h2
    have ha : a = r := by omega
    subst ha
    rw [queuedLoop, if_pos h2, henv a]
    simp only
    rw [if_neg (by omega : ¬ a < a)]
    rfl
  | succ n ih =>
    intro a hn h1 h2
    have hlt : a < r := by omega
    rw [queuedLoop, if_pos h2, henv a]
    simp only
    rw [if_pos hlt, ih (a + 1) (by omega) (by omega) (by omega)]
    rfl

theorem queuedLoop_noAttempt {ε α : Type} (r : Int) (isMod : Bool)
    (env : Int → Except ε α) (h : r ≤ 0) :
    queuedLoop r 1 isMod env = ([], none) := by
  rw [queuedLoop, if_neg (by omega : ¬ (1 : Int) ≤ r)]

theorem executeQueryFast_noAttempt {ε α : Type} (r : Int)
    (env : Int → Except ε α) (h : r ≤ 0) :
    executeQueryFast r env = ([], .error Thrown.queryFailedAfterRetries) := by
  unfold executeQueryFast
  rw [fastLoop, if_neg (by omega : ¬ (1 : Int) ≤ r)]
  rfl

theorem processQueue_eq_map {ε α : Type} (ops : List (QOp ε α)) :
    processQueue ops = ops.map runOp := by
  induction ops with
  | nil => rfl
  | cons op rest ih => rw [processQueue, ih, List.map_cons]

theorem delaysOf_backoffTraceAux :
    ∀ (n : Nat) (a : Int), 1 ≤ a →
      delaysOf (backoffTraceAux (n + 1) a) =
        (List.range n).map (fun i => 100 * 2 ^ ((a - 1).toNat + i)) := by
  intro n
  induction n with
  | zero =>
    intro a h1
    rfl
  | succ n ih =>
    intro a h1
    show delaysOf (QEv.att a :: QEv.delay (100 * 2 ^ (a - 1).toNat) ::
      backoffTraceAux (n + 1) (a + 1)) = _
    rw [delaysOf, List.filterMap_cons, List.filterMap_cons]
    simp only
    rw [show List.filterMap _ (backoffTraceAux (n + 1) (a + 1)) =
      delaysOf (backoffTraceAux (n + 1) (a + 1)) from rfl]
    rw [ih (a + 1) (by omega)]
    rw [List.range_succ_eq_map, List.map_cons, List.map_map]
    have hexp : ∀ x y : Nat, x = y → (100 : Int) * 2 ^ x = 100 * 2 ^ y := by
      intro x y h
      rw [h]
    refine congrArg₂ List.cons ?_ (List.map_congr_left ?_)
    · simp
    · intro i hi
      simp only [Function.comp_apply]
      exact hexp _ _ (by omega)

theorem countAtt_backoffTraceAux :
    ∀ (n : Nat) (a : Int), countAtt (backoffTraceAux (n + 1) a) = n + 1 := by
  intro n
  induction n with
  | zero =>
    intro a
    rfl
  | succ n ih =>
    intro a
    show countAtt (QEv.att a :: QEv.delay (100 * 2 ^ (a - 1).toNat) ::
      backoffTraceAux (n + 1) (a + 1)) = _
    rw [countAtt, List.countP_cons, List.countP_cons]
    rw [show List.countP _ (backoffTraceAux (n + 1) (a + 1)) =
      countAtt (backoffTraceAux (n + 1) (a + 1)) from rfl]
    rw [ih (a + 1)]
    simp

end Pglite

namespace Pglite

/-- C7: `isModifyingQuery` returns true exactly when the statement, after
trimming and lowercasing, begins with one of insert, update, delete, create,
alter, drop, truncate; in particular "  select 1" is read-only and
"INSERT INTO t ..." is mutating. -/
theorem isModifyingQuery_classification :
    (∀ q : List Char, isModifyingQuery q = specIsModifying q) ∧
    isModifyingQuery "  select 1".toList = false ∧
    isModifyingQuery "INSERT INTO t (x) VALUES (1)".toList = true :=
  ⟨isModifyingQuery_eq_spec, by decide, by decide⟩

/-- C6: `skipQueue` is honored only for read-only statements: a call with a
mutating statement is routed to the queue whatever the options say, and the
fast path is reached only with `skipQueue` truthy and a read-only statement. -/
theorem executeQuery_skipQueue_mutating_queued (config : Option ExecOptions)
    (query : List Char) :
    (isModifyingQuery query = true → executeQueryRoute config query = ExecRoute.queued) ∧
    (executeQueryRoute config query = ExecRoute.fastRead →
      wantsSkipQueue config = true ∧ isModifyingQuery query = false) := by
  constructor
  · intro h
    unfold executeQueryRoute
    rw [h]
    simp
  · intro h
    unfold executeQueryRoute at h
    split at h
    · next hc =>
      simp only [Bool.and_eq_true, Bool.not_eq_true'] at hc
      exact ⟨hc.1, hc.2⟩
    · simp at h

/-- C6 witness: a mutating statement with `skipQueue := true` is still queued. -/
theorem executeQuery_skipQueue_mutating_queued_witness :
    isModifyingQuery "INSERT INTO patients (full_name) VALUES ($1)".toList = true ∧
    executeQueryRoute
      (some { skipQueue := some true, retries := none, broadcastTable := none })
      "INSERT INTO patients (full_name) VALUES ($1)".toList = ExecRoute.queued :=
  ⟨by decide,
   (executeQuery_skipQueue_mutating_queued _ _).1 (by decide)⟩

/-- C8: `getAffectedTable` matches the specification's first-match heuristic
over the three keyword patterns, yields "patients" for the two example
statements, and none for a statement matching no pattern. -/
theorem getAffectedTable_heuristic :
    (∀ q : List Char, getAffectedTable q = specAffectedTable q) ∧
    getAffectedTable "SELECT * FROM patients WHERE id=1".toList = some "patients".toList ∧
    getAffectedTable "INSERT INTO patients (full_name, age) VALUES ($1, $2)".toList =
      some "patients".toList ∧
    getAffectedTable "COMMIT".toList = none :=
  ⟨getAffectedTable_eq_spec, by decide, by decide, by decide⟩

/-- C4: for a statement that fails on every attempt with retry budget `r ≥ 1`,
both the fast path and the queued operation body make exactly `r` attempts,
wait `100 * 2 ^ (attempt - 1)` milliseconds (100, 200, 400, ...) between
consecutive attempts, and only after the `r`-th attempt reject with the last
error. -/
theorem executeQuery_retry_exhaustion {ε α : Type} (r : Int) (errF : Int → ε)
    (env : Int → Except ε α) (isMod : Bool)
    (henv : ∀ k, env k = Except.error (errF k)) (hr : 1 ≤ r) :
    executeQueryFast r env = (backoffTrace r, Except.error (Thrown.last (errF r))) ∧
    queuedLoop r 1 isMod env = (backoffTrace r, some (Except.error (errF r))) ∧
    countAtt (backoffTrace r) = r.toNat ∧
    delaysOf (backoffTrace r) =
      (List.range (r.toNat - 1)).map (fun i => 100 * 2 ^ i) := by
  have hb : backoffTrace r = backoffTraceAux ((r - 1).toNat + 1) 1 := by
    unfold backoffTrace
    congr 1
    omega
  refine ⟨?_, ?_, ?_, ?_⟩
  · rw [hb]
    exact fastLoop_fail r errF env henv (r - 1).toNat 1 none rfl (by omega) hr
  · rw [hb]
    exact queuedLoop_fail r isMod errF env henv (r - 1).toNat 1 rfl (by omega) hr
  · rw [hb, countAtt_backoffTraceAux (r - 1).toNat 1]
    omega
  · rw [hb, delaysOf_backoffTraceAux (r - 1).toNat 1 (by omega)]
    have hn : (r - 1).toNat = r.toNat - 1 := by omega
    rw [hn]
    apply List.map_congr_left
    intro i hi
    norm_num

/-- C4 witness: an always-failing statement with retry budget 3 produces
attempts 1, 2, 3 with delays 100 and 200 between them and rejects with the
third error, on both paths. -/
theorem executeQuery_retry_exhaustion_witness :
    executeQueryFast 3 (fun k => (Except.error k : Except Int Unit)) =
      (backoffTrace 3, Except.error (Thrown.last 3)) ∧
    queuedLoop 3 1 false (fun k => (Except.error k : Except Int Unit)) =
      (backoffTrace 3, some (Except.error 3)) ∧
    countAtt (backoffTrace 3) = 3 ∧
    delaysOf (backoffTrace 3) = [100, 200] ∧
    backoffTrace 3 = [QEv.att 1, QEv.delay 100, QEv.att 2, QEv.delay 200, QEv.att 3] := by
  have h := executeQuery_retry_exhaustion 3 (fun k => k)
    (fun k => (Except.error k : Except Int Unit)) false (fun _ => rfl) (by decide)
  exact ⟨h.1, h.2.1, by decide, by decide, by decide⟩

/-- C10: with a non-positive retry budget, the fast path rejects with the
generic "Query failed after retries" error without a single attempt, while the
queued operation body makes no attempt and never settles the caller's promise;
the queue nevertheless proceeds to the operations behind it. -/
theorem executeQuery_nonpositive_retries {ε α : Type} (r : Int) (hr : r ≤ 0)
    (env : Int → Except ε α) (isMod : Bool) (rest : List (QOp ε α)) :
    executeQueryFast r env = ([], Except.error Thrown.queryFailedAfterRetries) ∧
    queuedLoop r 1 isMod env = ([], none) ∧
    processQueue ({ retries := r, isMod := isMod, env := env } :: rest) =
      ([], none) :: processQueue rest := by
  refine ⟨executeQueryFast_noAttempt r env hr, queuedLoop_noAttempt r isMod env hr, ?_⟩
  rw [processQueue]
  rw [show runOp { retries := r, isMod := isMod, env := env } = queuedLoop r 1 isMod env
    from rfl]
  rw [queuedLoop_noAttempt r isMod env hr]

/-- C10 witness: retry budgets 0 and -2. -/
theorem executeQuery_nonpositive_retries_witness :
    executeQueryFast 0 (fun k => (Except.error k : Except Int Unit)) =
      ([], Except.error Thrown.queryFailedAfterRetries) ∧
    queuedLoop 0 1 true (fun k => (Except.error k : Except Int Unit)) = ([], none) ∧
    processQueue [(⟨0, true, fun k => Except.error k⟩ : QOp Int Unit)] = [([], none)] ∧
    executeQueryFast (-2) (fun k => (Except.error k : Except Int Unit)) =
      ([], Except.error Thrown.queryFailedAfterRetries) := by
  have h0 := executeQuery_nonpositive_retries 0 (by decide)
    (fun k => (Except.error k : Except Int Unit)) true []
  have h2 := executeQuery_nonpositive_retries (-2) (by decide)
    (fun k => (Except.error k : Except Int Unit)) true []
  exact ⟨h0.1, h0.2.1, h0.2.2, h2.1⟩

/-- C2 counterexample: with the broadcast channel open but its post throwing,
the single try block aborts before the shared-storage write and the local
event dispatch, so the failure of one transport does prevent delivery on the
other two, refuting the claimed independence. -/
theorem broadcastDatabaseChange_counterexample :
    ({ channelOpen := true, channelPostOk := false, storageOk := true,
       dispatchOk := true } : BroadcastEnv).storageOk = true ∧
    ({ channelOpen := true, channelPostOk := false, storageOk := true,
       dispatchOk := true } : BroadcastEnv).dispatchOk = true ∧
    broadcastDatabaseChange
      { channelOpen := true, channelPostOk := false, storageOk := true,
        dispatchOk := true } =
      { channelDelivered := false, storageDelivered := false,
        localDelivered := false, raised := false } :=
  ⟨rfl, rfl, rfl⟩

/-- C2 (amended): `broadcastDatabaseChange` never raises to its caller; the
three deliveries run sequentially inside one try block, so a synchronous
failure of an earlier delivery skips the later ones; when the broadcast
channel is merely unavailable, no error occurs and the shared-storage and
in-process deliveries still proceed. -/
theorem broadcastDatabaseChange_neverRaises_fallback :
    (∀ env : BroadcastEnv, (broadcastDatabaseChange env).raised = false) ∧
    (∀ env : BroadcastEnv, env.channelOpen = false →
      (broadcastDatabaseChange env).storageDelivered = env.storageOk ∧
      (broadcastDatabaseChange env).localDelivered = (env.storageOk && env.dispatchOk)) ∧
    (∀ env : BroadcastEnv, env.channelOpen = true → env.channelPostOk = false →
      (broadcastDatabaseChange env).storageDelivered = false ∧
      (broadcastDatabaseChange env).localDelivered = false) := by
  refine ⟨?_, ?_, ?_⟩
  · intro env
    rcases env with ⟨co, cp, so, dk⟩
    cases co <;> cases cp <;> cases so <;> cases dk <;> rfl
  · intro env hco
    rcases env with ⟨co, cp, so, dk⟩
    simp only at hco
    subst hco
    cases cp <;> cases so <;> cases dk <;> exact ⟨rfl, rfl⟩
  · intro env hco hcp
    rcases env with ⟨co, cp, so, dk⟩
    simp only at hco hcp
    subst hco
    subst hcp
    cases so <;> cases dk <;> exact ⟨rfl, rfl⟩

/-- C2 witness: with the channel unavailable, the shared-storage and local
deliveries both happen and nothing is raised. -/
theorem broadcastDatabaseChange_neverRaises_fallback_witness :
    (broadcastDatabaseChange ⟨false, true, true, true⟩).raised = false ∧
    (broadcastDatabaseChange ⟨false, true, true, true⟩).storageDelivered = true ∧
    (broadcastDatabaseChange ⟨false, true, true, true⟩).localDelivered = true :=
  ⟨broadcastDatabaseChange_neverRaises_fallback.1 _,
   (broadcastDatabaseChange_neverRaises_fallback.2.1 _ rfl).1,
   (broadcastDatabaseChange_neverRaises_fallback.2.1 _ rfl).2⟩

/-- C3 counterexample: two concurrent `initializeDatabase` calls from a fresh
module, interleaved at the fetch suspension point, fetch each binary asset
twice and return two distinct connection handles, refuting "fetches exactly
once" and "same handle" for concurrent calls. -/
theorem initializeDatabase_concurrent_counterexample :
    (initializeDatabaseConcurrent freshInitState).1.wasmFetches = 2 ∧
    (initializeDatabaseConcurrent freshInitState).1.fsFetches = 2 ∧
    (initializeDatabaseConcurrent freshInitState).2.1 ≠
      (initializeDatabaseConcurrent freshInitState).2.2 :=
  ⟨rfl, rfl, by decide⟩

/-- C3 (amended): `initializeDatabase` is idempotent for sequential calls:
while a Ready connection exists the guard returns the same handle without
changing state or refetching, and a fresh sequential initialization performs
each asset fetch exactly once. -/
theorem initializeDatabase_sequential_idempotent :
    (∀ (s : InitState) (h : Nat), s.isInitialized = true → s.dbInstance = some h →
      initializeDatabase s = (s, h)) ∧
    initializeDatabase (initializeDatabase freshInitState).1 =
      initializeDatabase freshInitState ∧
    (initializeDatabase freshInitState).1.wasmFetches = 1 ∧
    (initializeDatabase freshInitState).1.fsFetches = 1 := by
  refine ⟨?_, by decide, rfl, rfl⟩
  intro s h hinit hinst
  unfold initializeDatabase initGuardAndFetch
  rw [hinit, hinst]

/-- C3 witness: a second sequential call on a Ready state returns the same
handle and the state unchanged. -/
theorem initializeDatabase_sequential_idempotent_witness :
    initializeDatabase ⟨true, some 5, 1, 1, 6⟩ = (⟨true, some 5, 1, 1, 6⟩, 5) :=
  initializeDatabase_sequential_idempotent.1 _ 5 rfl rfl

/-- C9: `initializePatientTable` always returns a boolean and never rejects:
true exactly when all three internal statements succeed, false as soon as one
of them fails. -/
theorem initializePatientTable_boolean_total {ε : Type} (env : Nat → Except ε Unit) :
    (initializePatientTable env = Except.ok true ∨
     initializePatientTable env = Except.ok false) ∧
    (initializePatientTable env = Except.ok true ↔
      env 0 = Except.ok () ∧ env 1 = Except.ok () ∧ env 2 = Except.ok ()) := by
  unfold initializePatientTable
  cases h0 : env 0 <;> cases h1 : env 1 <;> cases h2 : env 2 <;> simp_all

end Pglite

namespace Pglite

/-! ## Small-step model of the pending-transaction queue
(pgliteConfig.ts lines 230-249 and 307-336)

`executeQuery` pushes a transaction closure onto `pendingTransactions` and
calls `processPendingTransactions`; the latter returns immediately when the
queue is empty or `isTransactionInProgress` is set, otherwise sets the flag,
shifts the head closure and awaits it, and in its `finally` clears the flag and
reschedules itself on a fresh macrotask.  Every await point is a machine state,
so arbitrary interleavings of pushes and scheduler invocations are covered.
The set of in-flight operations is a list, so that mutual exclusion is a
proved invariant of the flag discipline rather than a modelling assumption. -/

/-- One queued operation: a ghost identifier, the retry budget, and which
attempt numbers would succeed. -/
structure MOp where
  id : Nat
  retries : Int
  succ : Int → Bool

/-- Trace events of the queue machine: submission, operation start, attempt,
promise resolution, promise rejection, and transaction-body return (the point
where the processing flag clears). -/
inductive Ev where
  | enq (id : Nat)
  | start (id : Nat) (retries : Int)
  | att (id : Nat) (k : Int)
  | res (id : Nat)
  | rej (id : Nat)
  | done (id : Nat)
deriving DecidableEq

/-- Machine state: the pending queue, the in-flight operations with their
current attempt number, the `isTransactionInProgress` flag, and the trace. -/
structure MState where
  pending : List MOp
  running : List (MOp × Int)
  flag : Bool
  trace : List Ev

/-- Module state at load: empty queue, no transaction in progress. -/
def mInit : MState := ⟨[], [], false, []⟩

/-- Transitions of the queue.  `enqueue` is a push by `executeQuery`; `invoke`
is a run of `processPendingTransactions` past its guard (queue non-empty and
flag clear), which sets the flag and starts the head operation at attempt 1;
the `att` transitions execute one attempt of the in-flight operation: success
resolves and returns, a failure below the budget retries after the backoff
delay, a failure at the budget rejects and returns, and an attempt number
already past the budget (non-positive budget) returns without settling.
Returning clears the flag; the next operation starts only through a later
`invoke`. -/
inductive Step : MState → MState → Prop where
  | enqueue (s : MState) (op : MOp) :
      Step s { s with pending := s.pending ++ [op], trace := s.trace ++ [Ev.enq op.id] }
  | invoke (s : MState) (op : MOp) (rest : List MOp) :
      s.pending = op :: rest → s.flag = false →
      Step s { s with pending := rest, flag := true, running := s.running ++ [(op, 1)], trace := s.trace ++ [Ev.start op.id op.retries] }
  | attOk (s : MState) (op : MOp) (k : Int) (rs : List (MOp × Int)) :
      s.running = (op, k) :: rs → k ≤ op.retries → op.succ k = true →
      Step s { s with running := rs, flag := false, trace := s.trace ++ [Ev.att op.id k, Ev.res op.id, Ev.done op.id] }
  | attRetry (s : MState) (op : MOp) (k : Int) (rs : List (MOp × Int)) :
      s.running = (op, k) :: rs → k < op.retries → op.succ k = false →
      Step s { s with running := (op, k + 1) :: rs, trace := s.trace ++ [Ev.att op.id k] }
  | attRejectLast (s : MState) (op : MOp) (k : Int) (rs : List (MOp × Int)) :
      s.running = (op, k) :: rs → k ≤ op.retries → ¬ k < op.retries →
      op.succ k = false →
      Step s { s with running := rs, flag := false, trace := s.trace ++ [Ev.att op.id k, Ev.rej op.id, Ev.done op.id] }
  | attExhausted (s : MState) (op : MOp) (k : Int) (rs : List (MOp × Int)) :
      s.running = (op, k) :: rs → ¬ k ≤ op.retries →
      Step s { s with running := rs, flag := false, trace := s.trace ++ [Ev.done op.id] }

/-- States reachable from module load. -/
def Reachable (s : MState) : Prop := Relation.ReflTransGen Step mInit s

/-- Identifiers of started operations, in trace order. -/
def startedIds (t : List Ev) : List Nat :=
  t.filterMap fun e => match e with | .start i _ => some i | _ => none

/-- Identifiers of enqueued operations, in trace order. -/
def enqueuedIds (t : List Ev) : List Nat :=
  t.filterMap fun e => match e with | .enq i => some i | _ => none

/-- Is the event an operation start? -/
def isStart (e : Ev) : Bool := match e with | .start _ _ => true | _ => false

/-- Inductive invariant of the queue machine: the flag is set exactly while an
operation is in flight; at most one operation is in flight; submissions equal
starts followed by the still-pending queue (FIFO); an in-flight attempt number
is at least 1 and within budget unless it is the first attempt; every started
operation with a positive budget has settled or is the unique in-flight one;
and between any two starts the earlier operation, if its budget is positive,
has settled. -/
def QueueInv (s : MState) : Prop :=
  (s.flag = true ↔ s.running ≠ []) ∧
  s.running.length ≤ 1 ∧
  enqueuedIds s.trace = startedIds s.trace ++ s.pending.map MOp.id ∧
  (∀ op k rs, s.running = (op, k) :: rs → 1 ≤ k ∧ (k ≤ op.retries ∨ k = 1)) ∧
  (∀ t1 i ri t2, s.trace = t1 ++ Ev.start i ri :: t2 → 1 ≤ ri →
      (Ev.res i ∈ t2 ∨ Ev.rej i ∈ t2) ∨
      ∃ op k, s.running = [(op, k)] ∧ op.id = i ∧ op.retries = ri) ∧
  (∀ t1 i ri t2 j rj t3,
      s.trace = t1 ++ Ev.start i ri :: (t2 ++ Ev.start j rj :: t3) → 1 ≤ ri →
      Ev.res i ∈ t2 ∨ Ev.rej i ∈ t2)

theorem append_singleton_eq {α : Type} (t t1 t2 : List α) (x y : α)
    (h : t ++ [x] = t1 ++ y :: t2) :
    (t2 = [] ∧ y = x ∧ t = t1) ∨ ∃ t2a, t2 = t2a ++ [x] ∧ t = t1 ++ y :: t2a := by
  rcases List.eq_nil_or_concat t2 with h2 | ⟨t2a, z, h2⟩
  · subst h2
    obtain ⟨ht, hxy⟩ := List.append_inj' h rfl
    exact Or.inl ⟨rfl, (List.cons.injEq ..).mp hxy.symm |>.1, ht⟩
  · rw [List.concat_eq_append] at h2
    subst h2
    rw [show t1 ++ y :: (t2a ++ [z]) = (t1 ++ y :: t2a) ++ [z] by simp] at h
    obtain ⟨ht, hxz⟩ := List.append_inj' h rfl
    have hz : z = x := by
      injection hxz.symm
    exact Or.inr ⟨t2a, by rw [hz], ht⟩

theorem start_decomp_append (t X t1 t2 : List Ev) (i : Nat) (ri : Int)
    (hX : ∀ e ∈ X, isStart e = false)
    (h : t ++ X = t1 ++ Ev.start i ri :: t2) :
    ∃ t2a, t = t1 ++ Ev.start i ri :: t2a ∧ t2 = t2a ++ X := by
  rcases List.append_eq_append_iff.mp h with ⟨a, _, ha2⟩ | ⟨c, hc1, hc2⟩
  · exfalso
    have hm : Ev.start i ri ∈ X := by
      rw [ha2]
      simp
    have := hX _ hm
    simp [isStart] at this
  · cases c with
    | nil =>
      exfalso
      have hm : Ev.start i ri ∈ X := by
        rw [List.nil_append] at hc2
        rw [← hc2]
        exact List.mem_cons_self _ _
      have := hX _ hm
      simp [isStart] at this
    | cons y c2 =>
      obtain ⟨hy, ht2⟩ := (List.cons.injEq ..).mp hc2
      subst hy
      exact ⟨c2, by rw [hc1], ht2⟩

end Pglite

namespace Pglite

theorem startedIds_append (t u : List Ev) :
    startedIds (t ++ u) = startedIds t ++ startedIds u :=
  List.filterMap_append t u _

theorem enqueuedIds_append (t u : List Ev) :
    enqueuedIds (t ++ u) = enqueuedIds t ++ enqueuedIds u :=
  List.filterMap_append t u _

theorem queueInv_init : QueueInv mInit := by
  refine ⟨by simp [mInit], by simp [mInit], rfl, ?_, ?_, ?_⟩
  · intro op k rs h
    simp [mInit] at h
  · intro t1 i ri t2 h hri
    obtain ⟨_, h2⟩ := List.append_eq_nil.mp h.symm
    cases h2
  · intro t1 i ri t2 j rj t3 h hri
    obtain ⟨_, h2⟩ := List.append_eq_nil.mp h.symm
    cases h2

end Pglite

namespace Pglite

theorem step_preserves {s s' : MState} (hs : QueueInv s) (st : Step s s') :
    QueueInv s' := by
  obtain ⟨hA, hB, hC, hF, hD, hE⟩ := hs
  cases st with
  | enqueue op =>
    refine ⟨hA, hB, ?_, hF, ?_, ?_⟩
    · show enqueuedIds (s.trace ++ [Ev.enq op.id]) =
        startedIds (s.trace ++ [Ev.enq op.id]) ++ (s.pending ++ [op]).map MOp.id
      rw [enqueuedIds_append, startedIds_append, hC]
      simp [enqueuedIds, startedIds]
    · intro t1 i ri t2 h hri
      obtain ⟨t2a, ht, ht2⟩ := start_decomp_append s.trace [Ev.enq op.id] t1 t2 i ri
        (by intro e he; simp at he; subst he; rfl) h
      rcases hD t1 i ri t2a ht hri with hset | hrunb
      · left
        rw [ht2]
        rcases hset with h1 | h1
        · exact Or.inl (List.mem_append_left _ h1)
        · exact Or.inr (List.mem_append_left _ h1)
      · exact Or.inr hrunb
    · intro t1 i ri t2 j rj t3 h hri
      have h' : s.trace ++ [Ev.enq op.id] =
          (t1 ++ Ev.start i ri :: t2) ++ Ev.start j rj :: t3 := by
        have h2 : s.trace ++ [Ev.enq op.id] =
            t1 ++ Ev.start i ri :: (t2 ++ Ev.start j rj :: t3) := h
        rw [h2]
        simp
      obtain ⟨t3a, ht, _⟩ := start_decomp_append s.trace [Ev.enq op.id]
        (t1 ++ Ev.start i ri :: t2) t3 j rj
        (by intro e he; simp at he; subst he; rfl) h'
      exact hE t1 i ri t2 j rj t3a (by rw [ht]; simp) hri
  | invoke op rest hp hf =>
    have hrun : s.running = [] := by
      by_contra hne
      rw [hA.mpr hne] at hf
      simp at hf
    refine ⟨?_, ?_, ?_, ?_, ?_, ?_⟩
    · show (true = true) ↔ s.running ++ [(op, 1)] ≠ []
      simp
    · show (s.running ++ [(op, 1)]).length ≤ 1
      rw [hrun]
      simp
    · show enqueuedIds (s.trace ++ [Ev.start op.id op.retries]) =
        startedIds (s.trace ++ [Ev.start op.id op.retries]) ++ rest.map MOp.id
      rw [enqueuedIds_append, startedIds_append, hC, hp]
      simp [enqueuedIds, startedIds]
    · intro op' k' rs' heq
      show 1 ≤ k' ∧ (k' ≤ op'.retries ∨ k' = 1)
      rw [hrun, List.nil_append] at heq
      injection heq with hpair hrest
      injection hpair with hop hk
      subst hop
      subst hk
      exact ⟨le_refl 1, Or.inr rfl⟩
    · intro t1 i ri t2 h hri
      rcases append_singleton_eq s.trace t1 t2 (Ev.start op.id op.retries)
        (Ev.start i ri) h with ⟨ht2, hy, ht⟩ | ⟨t2a, ht2, ht⟩
      · injection hy with hid hret
        right
        exact ⟨op, 1, by rw [hrun]; rfl, hid.symm, hret.symm⟩
      · rcases hD t1 i ri t2a ht hri with hset | ⟨op0, k0, heq, _, _⟩
        · left
          rw [ht2]
          rcases hset with h1 | h1
          · exact Or.inl (List.mem_append_left _ h1)
          · exact Or.inr (List.mem_append_left _ h1)
        · exfalso
          rw [hrun] at heq
          simp at heq
    · intro t1 i ri t2 j rj t3 h hri
      have h' : s.trace ++ [Ev.start op.id op.retries] =
          (t1 ++ Ev.start i ri :: t2) ++ Ev.start j rj :: t3 := by
        have h2 : s.trace ++ [Ev.start op.id op.retries] =
            t1 ++ Ev.start i ri :: (t2 ++ Ev.start j rj :: t3) := h
        rw [h2]
        simp
      rcases append_singleton_eq s.trace (t1 ++ Ev.start i ri :: t2) t3
        (Ev.start op.id op.retries) (Ev.start j rj) h' with ⟨ht3, hy, ht⟩ | ⟨t3a, ht3, ht⟩
      · rcases hD t1 i ri t2 ht hri with hset | ⟨op0, k0, heq, _, _⟩
        · exact hset
        · exfalso
          rw [hrun] at heq
          simp at heq
      · exact hE t1 i ri t2 j rj t3a (by rw [ht]; simp) hri
  | attOk op k rs hr hk hsucc =>
    have hrs : rs = [] := by
      have h1 := hB
      rw [hr] at h1
      simp only [List.length_cons] at h1
      exact List.length_eq_zero.mp (by omega)
    refine ⟨?_, ?_, ?_, ?_, ?_, ?_⟩
    · show (false = true) ↔ rs ≠ []
      rw [hrs]
      simp
    · show rs.length ≤ 1
      rw [hrs]
      simp
    · show enqueuedIds (s.trace ++ [Ev.att op.id k, Ev.res op.id, Ev.done op.id]) =
        startedIds (s.trace ++ [Ev.att op.id k, Ev.res op.id, Ev.done op.id]) ++
          s.pending.map MOp.id
      rw [enqueuedIds_append, startedIds_append, hC]
      simp [enqueuedIds, startedIds]
    · intro op' k' rs' heq
      show 1 ≤ k' ∧ (k' ≤ op'.retries ∨ k' = 1)
      exact absurd heq (by rw [hrs]; simp)
    · intro t1 i ri t2 h hri
      obtain ⟨t2a, ht, ht2⟩ := start_decomp_append s.trace
        [Ev.att op.id k, Ev.res op.id, Ev.done op.id] t1 t2 i ri
        (by intro e he; simp at he; rcases he with rfl | rfl | rfl <;> rfl) h
      rcases hD t1 i ri t2a ht hri with hset | ⟨op0, k0, heq, hid, hret⟩
      · left
        rw [ht2]
        rcases hset with h1 | h1
        · exact Or.inl (List.mem_append_left _ h1)
        · exact Or.inr (List.mem_append_left _ h1)
      · have hcomb : ((op, k) :: rs : List (MOp × Int)) = [(op0, k0)] :=
          hr.symm.trans heq
        injection hcomb with hpair hrest
        injection hpair with hop hk0
        left
        rw [ht2, ← hid, ← hop]
        left
        exact List.mem_append_right _ (by simp)
    · intro t1 i ri t2 j rj t3 h hri
      have h' : s.trace ++ [Ev.att op.id k, Ev.res op.id, Ev.done op.id] =
          (t1 ++ Ev.start i ri :: t2) ++ Ev.start j rj :: t3 := by
        have h2 : s.trace ++ [Ev.att op.id k, Ev.res op.id, Ev.done op.id] =
            t1 ++ Ev.start i ri :: (t2 ++ Ev.start j rj :: t3) := h
        rw [h2]
        simp
      obtain ⟨t3a, ht, _⟩ := start_decomp_append s.trace
        [Ev.att op.id k, Ev.res op.id, Ev.done op.id]
        (t1 ++ Ev.start i ri :: t2) t3 j rj
        (by intro e he; simp at he; rcases he with rfl | rfl | rfl <;> rfl) h'
      exact hE t1 i ri t2 j rj t3a (by rw [ht]; simp) hri
  | attRetry op k rs hr hk hsucc =>
    have hfl : s.flag = true := hA.mpr (by rw [hr]; exact List.cons_ne_nil _ _)
    refine ⟨?_, ?_, ?_, ?_, ?_, ?_⟩
    · show (s.flag = true) ↔ (op, k + 1) :: rs ≠ []
      simp [hfl]
    · show ((op, k + 1) :: rs).length ≤ 1
      have h1 := hB
      rw [hr] at h1
      simpa using h1
    · show enqueuedIds (s.trace ++ [Ev.att op.id k]) =
        startedIds (s.trace ++ [Ev.att op.id k]) ++ s.pending.map MOp.id
      rw [enqueuedIds_append, startedIds_append, hC]
      simp [enqueuedIds, startedIds]
    · intro op' k' rs' heq
      show 1 ≤ k' ∧ (k' ≤ op'.retries ∨ k' = 1)
      injection heq with hpair hrest
      injection hpair with hop hk'
      obtain ⟨hk1, _⟩ := hF op k rs hr
      subst hop
      subst hk'
      exact ⟨by omega, Or.inl (by omega)⟩
    · intro t1 i ri t2 h hri
      obtain ⟨t2a, ht, ht2⟩ := start_decomp_append s.trace [Ev.att op.id k] t1 t2 i ri
        (by intro e he; simp at he; subst he; rfl) h
      rcases hD t1 i ri t2a ht hri with hset | ⟨op0, k0, heq, hid, hret⟩
      · left
        rw [ht2]
        rcases hset with h1 | h1
        · exact Or.inl (List.mem_append_left _ h1)
        · exact Or.inr (List.mem_append_left _ h1)
      · have hcomb : ((op, k) :: rs : List (MOp × Int)) = [(op0, k0)] :=
          hr.symm.trans heq
        injection hcomb with hpair hrest
        injection hpair with hop hk0
        right
        refine ⟨op, k + 1, by rw [hrest], ?_, ?_⟩
        · rw [hop]
          exact hid
        · rw [hop]
          exact hret
    · intro t1 i ri t2 j rj t3 h hri
      have h' : s.trace ++ [Ev.att op.id k] =
          (t1 ++ Ev.start i ri :: t2) ++ Ev.start j rj :: t3 := by
        have h2 : s.trace ++ [Ev.att op.id k] =
            t1 ++ Ev.start i ri :: (t2 ++ Ev.start j rj :: t3) := h
        rw [h2]
        simp
      obtain ⟨t3a, ht, _⟩ := start_decomp_append s.trace [Ev.att op.id k]
        (t1 ++ Ev.start i ri :: t2) t3 j rj
        (by intro e he; simp at he; subst he; rfl) h'
      exact hE t1 i ri t2 j rj t3a (by rw [ht]; simp) hri
  | attRejectLast op k rs hr hk hnlt hsucc =>
    have hrs : rs = [] := by
      have h1 := hB
      rw [hr] at h1
      simp only [List.length_cons] at h1
      exact List.length_eq_zero.mp (by omega)
    refine ⟨?_, ?_, ?_, ?_, ?_, ?_⟩
    · show (false = true) ↔ rs ≠ []
      rw [hrs]
      simp
    · show rs.length ≤ 1
      rw [hrs]
      simp
    · show enqueuedIds (s.trace ++ [Ev.att op.id k, Ev.rej op.id, Ev.done op.id]) =
        startedIds (s.trace ++ [Ev.att op.id k, Ev.rej op.id, Ev.done op.id]) ++
          s.pending.map MOp.id
      rw [enqueuedIds_append, startedIds_append, hC]
      simp [enqueuedIds, startedIds]
    · intro op' k' rs' heq
      show 1 ≤ k' ∧ (k' ≤ op'.retries ∨ k' = 1)
      exact absurd heq (by rw [hrs]; simp)
    · intro t1 i ri t2 h hri
      obtain ⟨t2a, ht, ht2⟩ := start_decomp_append s.trace
        [Ev.att op.id k, Ev.rej op.id, Ev.done op.id] t1 t2 i ri
        (by intro e he; simp at he; rcases he with rfl | rfl | rfl <;> rfl) h
      rcases hD t1 i ri t2a ht hri with hset | ⟨op0, k0, heq, hid, hret⟩
      · left
        rw [ht2]
        rcases hset with h1 | h1
        · exact Or.inl (List.mem_append_left _ h1)
        · exact Or.inr (List.mem_append_left _ h1)
      · have hcomb : ((op, k) :: rs : List (MOp × Int)) = [(op0, k0)] :=
          hr.symm.trans heq
        injection hcomb with hpair hrest
        injection hpair with hop hk0
        left
        rw [ht2, ← hid, ← hop]
        right
        exact List.mem_append_right _ (by simp)
    · intro t1 i ri t2 j rj t3 h hri
      have h' : s.trace ++ [Ev.att op.id k, Ev.rej op.id, Ev.done op.id] =
          (t1 ++ Ev.start i ri :: t2) ++ Ev.start j rj :: t3 := by
        have h2 : s.trace ++ [Ev.att op.id k, Ev.rej op.id, Ev.done op.id] =
            t1 ++ Ev.start i ri :: (t2 ++ Ev.start j rj :: t3) := h
        rw [h2]
        simp
      obtain ⟨t3a, ht, _⟩ := start_decomp_append s.trace
        [Ev.att op.id k, Ev.rej op.id, Ev.done op.id]
        (t1 ++ Ev.start i ri :: t2) t3 j rj
        (by intro e he; simp at he; rcases he with rfl | rfl | rfl <;> rfl) h'
      exact hE t1 i ri t2 j rj t3a (by rw [ht]; simp) hri
  | attExhausted op k rs hr hk =>
    have hrs : rs = [] := by
      have h1 := hB
      rw [hr] at h1
      simp only [List.length_cons] at h1
      exact List.length_eq_zero.mp (by omega)
    refine ⟨?_, ?_, ?_, ?_, ?_, ?_⟩
    · show (false = true) ↔ rs ≠ []
      rw [hrs]
      simp
    · show rs.length ≤ 1
      rw [hrs]
      simp
    · show enqueuedIds (s.trace ++ [Ev.done op.id]) =
        startedIds (s.trace ++ [Ev.done op.id]) ++ s.pending.map MOp.id
      rw [enqueuedIds_append, startedIds_append, hC]
      simp [enqueuedIds, startedIds]
    · intro op' k' rs' heq
      show 1 ≤ k' ∧ (k' ≤ op'.retries ∨ k' = 1)
      exact absurd heq (by rw [hrs]; simp)
    · intro t1 i ri t2 h hri
      obtain ⟨t2a, ht, ht2⟩ := start_decomp_append s.trace [Ev.done op.id] t1 t2 i ri
        (by intro e he; simp at he; subst he; rfl) h
      rcases hD t1 i ri t2a ht hri with hset | ⟨op0, k0, heq, hid, hret⟩
      · left
        rw [ht2]
        rcases hset with h1 | h1
        · exact Or.inl (List.mem_append_left _ h1)
        · exact Or.inr (List.mem_append_left _ h1)
      · exfalso
        have hcomb : ((op, k) :: rs : List (MOp × Int)) = [(op0, k0)] :=
          hr.symm.trans heq
        injection hcomb with hpair hrest
        injection hpair with hop hk0
        obtain ⟨hk1, hk2⟩ := hF op k rs hr
        have hretop : op.retries = ri := by
          rw [hop]
          exact hret
        rw [hretop] at hk2 hk
        omega
    · intro t1 i ri t2 j rj t3 h hri
      have h' : s.trace ++ [Ev.done op.id] =
          (t1 ++ Ev.start i ri :: t2) ++ Ev.start j rj :: t3 := by
        have h2 : s.trace ++ [Ev.done op.id] =
            t1 ++ Ev.start i ri :: (t2 ++ Ev.start j rj :: t3) := h
        rw [h2]
        simp
      obtain ⟨t3a, ht, _⟩ := start_decomp_append s.trace [Ev.done op.id]
        (t1 ++ Ev.start i ri :: t2) t3 j rj
        (by intro e he; simp at he; subst he; rfl) h'
      exact hE t1 i ri t2 j rj t3a (by rw [ht]; simp) hri

theorem reachable_inv (s : MState) (h : Reachable s) : QueueInv s := by
  induction h with
  | refl => exact queueInv_init
  | tail hab hbc ih => exact step_preserves ih hbc

end Pglite

namespace Pglite

/-- C1 (amended): in every reachable state of the queue machine, at most one
operation is in flight against the connection (mutual exclusion), the
submitted identifiers are exactly the started ones in submission (FIFO) order
followed by the still-pending queue, and between any two operation starts the
earlier operation has settled (resolved or rejected), provided its retry
budget is at least 1; an operation with a non-positive budget completes
without settling (see C10), though the queue still advances past it. -/
theorem queuedPath_serialized (s : MState) (hs : Reachable s) :
    s.running.length ≤ 1 ∧
    enqueuedIds s.trace = startedIds s.trace ++ s.pending.map MOp.id ∧
    (∀ t1 i ri t2 j rj t3,
      s.trace = t1 ++ Ev.start i ri :: (t2 ++ Ev.start j rj :: t3) → 1 ≤ ri →
      Ev.res i ∈ t2 ∨ Ev.rej i ∈ t2) := by
  obtain ⟨_, hB, hC, _, _, hE⟩ := reachable_inv s hs
  exact ⟨hB, hC, hE⟩

/-- Run refuting the unconditional settled-before-next-start reading: after a
zero-budget operation completes, the next operation has started while the
first never resolved or rejected. -/
def c1CexState : MState :=
  ⟨[], [(⟨1, 1, fun _ => true⟩, 1)], true,
   [Ev.enq 0, Ev.enq 1, Ev.start 0 0, Ev.done 0, Ev.start 1 1]⟩

/-- C1 counterexample: a reachable state whose trace decomposes as two starts
with no resolution or rejection of the first operation in between: the next
queued operation starts although the previous one never settled, so the claim
without a positive-retry-budget proviso is false. -/
theorem queuedPath_serialized_counterexample :
    Reachable c1CexState ∧
    c1CexState.trace =
      [Ev.enq 0, Ev.enq 1] ++ Ev.start 0 0 :: ([Ev.done 0] ++ Ev.start 1 1 :: []) ∧
    Ev.res 0 ∉ [Ev.done 0] ∧ Ev.rej 0 ∉ [Ev.done 0] := by
  refine ⟨?_, rfl, by decide, by decide⟩
  have r1 : Reachable ⟨[⟨0, 0, fun _ => false⟩], [], false, [Ev.enq 0]⟩ :=
    Relation.ReflTransGen.single (Step.enqueue mInit ⟨0, 0, fun _ => false⟩)
  have r2 : Reachable ⟨[⟨0, 0, fun _ => false⟩, ⟨1, 1, fun _ => true⟩], [], false,
      [Ev.enq 0, Ev.enq 1]⟩ :=
    r1.tail (Step.enqueue _ ⟨1, 1, fun _ => true⟩)
  have r3 : Reachable ⟨[⟨1, 1, fun _ => true⟩], [(⟨0, 0, fun _ => false⟩, 1)], true,
      [Ev.enq 0, Ev.enq 1, Ev.start 0 0]⟩ :=
    r2.tail (Step.invoke _ ⟨0, 0, fun _ => false⟩ [⟨1, 1, fun _ => true⟩] rfl rfl)
  have r4 : Reachable ⟨[⟨1, 1, fun _ => true⟩], [], false,
      [Ev.enq 0, Ev.enq 1, Ev.start 0 0, Ev.done 0]⟩ :=
    r3.tail (Step.attExhausted _ ⟨0, 0, fun _ => false⟩ 1 [] rfl (by decide))
  exact r4.tail (Step.invoke _ ⟨1, 1, fun _ => true⟩ [] rfl rfl)

/-- A completed two-operation run: operation 0 succeeds at its first attempt,
operation 1 exhausts its budget of 1 and rejects. -/
def c1WitState : MState :=
  ⟨[], [], false,
   [Ev.enq 0, Ev.enq 1, Ev.start 0 1, Ev.att 0 1, Ev.res 0, Ev.done 0,
    Ev.start 1 1, Ev.att 1 1, Ev.rej 1, Ev.done 1]⟩

/-- C1 witness: the serialization theorem applied to a concrete reachable
completed run of two operations. -/
theorem queuedPath_serialized_witness :
    c1WitState.running.length ≤ 1 ∧
    enqueuedIds c1WitState.trace =
      startedIds c1WitState.trace ++ c1WitState.pending.map MOp.id ∧
    (∀ t1 i ri t2 j rj t3,
      c1WitState.trace = t1 ++ Ev.start i ri :: (t2 ++ Ev.start j rj :: t3) →
      1 ≤ ri → Ev.res i ∈ t2 ∨ Ev.rej i ∈ t2) := by
  apply queuedPath_serialized
  have r1 : Reachable ⟨[⟨0, 1, fun _ => true⟩], [], false, [Ev.enq 0]⟩ :=
    Relation.ReflTransGen.single (Step.enqueue mInit ⟨0, 1, fun _ => true⟩)
  have r2 : Reachable ⟨[⟨0, 1, fun _ => true⟩, ⟨1, 1, fun _ => false⟩], [], false,
      [Ev.enq 0, Ev.enq 1]⟩ :=
    r1.tail (Step.enqueue _ ⟨1, 1, fun _ => false⟩)
  have r3 : Reachable ⟨[⟨1, 1, fun _ => false⟩], [(⟨0, 1, fun _ => true⟩, 1)], true,
      [Ev.enq 0, Ev.enq 1, Ev.start 0 1]⟩ :=
    r2.tail (Step.invoke _ ⟨0, 1, fun _ => true⟩ [⟨1, 1, fun _ => false⟩] rfl rfl)
  have r4 : Reachable ⟨[⟨1, 1, fun _ => false⟩], [], false,
      [Ev.enq 0, Ev.enq 1, Ev.start 0 1, Ev.att 0 1, Ev.res 0, Ev.done 0]⟩ :=
    r3.tail (Step.attOk _ ⟨0, 1, fun _ => true⟩ 1 [] rfl (by decide) rfl)
  have r5 : Reachable ⟨[], [(⟨1, 1, fun _ => false⟩, 1)], true,
      [Ev.enq 0, Ev.enq 1, Ev.start 0 1, Ev.att 0 1, Ev.res 0, Ev.done 0,
       Ev.start 1 1]⟩ :=
    r4.tail (Step.invoke _ ⟨1, 1, fun _ => false⟩ [] rfl rfl)
  exact r5.tail (Step.attRejectLast _ ⟨1, 1, fun _ => false⟩ 1 [] rfl (by decide)
    (by decide) rfl)

/-- C5: a permanently failing queued operation with a positive retry budget
settles only its own slot, with the last error, after its full backoff trace;
every other operation's slot holds exactly what running that operation alone
produces, so a permanent failure at position `k` does not prevent positions
after `k` from executing.  In the machine, any step that completes an
operation clears the processing flag, leaves nothing in flight, and does not
start the next pending operation within the same step: the next start needs a
fresh scheduler invocation. -/
theorem queue_failure_isolation {ε α : Type} :
    (∀ (ops : List (QOp ε α)) (k : Nat) (opk : QOp ε α) (errF : Int → ε),
      ops[k]? = some opk → (∀ a, opk.env a = Except.error (errF a)) →
      1 ≤ opk.retries →
      (processQueue ops)[k]? =
        some (backoffTrace opk.retries, some (Except.error (errF opk.retries))) ∧
      ∀ (j : Nat) (opj : QOp ε α), ops[j]? = some opj →
        (processQueue ops)[j]? = some (runOp opj)) ∧
    (∀ s s' : MState, Reachable s → Step s s' →
      (∃ X, s'.trace = s.trace ++ X ∧ ∃ i, Ev.done i ∈ X) →
      s'.flag = false ∧ s'.running = [] ∧ s'.pending = s.pending) := by
  constructor
  · intro ops k opk errF hk henv hr
    constructor
    · rw [processQueue_eq_map, List.getElem?_map, hk]
      have hrun : runOp opk =
          (backoffTrace opk.retries, some (Except.error (errF opk.retries))) := by
        unfold runOp
        rw [queuedLoop_fail opk.retries opk.isMod errF opk.env henv
          (opk.retries - 1).toNat 1 rfl (by omega) hr]
        unfold backoffTrace
        congr 2
        omega
      rw [Option.map_some', hrun]
    · intro j opj hj
      rw [processQueue_eq_map, List.getElem?_map, hj, Option.map_some']
  · intro s s' hreach hstep hdone
    obtain ⟨X, hX, i, hi⟩ := hdone
    cases hstep with
    | enqueue op =>
      exfalso
      have hX2 : s.trace ++ [Ev.enq op.id] = s.trace ++ X := hX
      have hXeq : [Ev.enq op.id] = X := List.append_cancel_left hX2
      rw [← hXeq] at hi
      simp at hi
    | invoke op rest hp hf =>
      exfalso
      have hX2 : s.trace ++ [Ev.start op.id op.retries] = s.trace ++ X := hX
      have hXeq : [Ev.start op.id op.retries] = X := List.append_cancel_left hX2
      rw [← hXeq] at hi
      simp at hi
    | attRetry op k rs hr hklt hsucc =>
      exfalso
      have hX2 : s.trace ++ [Ev.att op.id k] = s.trace ++ X := hX
      have hXeq : [Ev.att op.id k] = X := List.append_cancel_left hX2
      rw [← hXeq] at hi
      simp at hi
    | attOk op k rs hr hk hsucc =>
      have hrs : rs = [] := by
        obtain ⟨_, hB, _, _, _, _⟩ := reachable_inv s hreach
        rw [hr] at hB
        simp only [List.length_cons] at hB
        exact List.length_eq_zero.mp (by omega)
      exact ⟨rfl, hrs, rfl⟩
    | attRejectLast op k rs hr hk hnlt hsucc =>
      have hrs : rs = [] := by
        obtain ⟨_, hB, _, _, _, _⟩ := reachable_inv s hreach
        rw [hr] at hB
        simp only [List.length_cons] at hB
        exact List.length_eq_zero.mp (by omega)
      exact ⟨rfl, hrs, rfl⟩
    | attExhausted op k rs hr hk =>
      have hrs : rs = [] := by
        obtain ⟨_, hB, _, _, _, _⟩ := reachable_inv s hreach
        rw [hr] at hB
        simp only [List.length_cons] at hB
        exact List.length_eq_zero.mp (by omega)
      exact ⟨rfl, hrs, rfl⟩

/-- Queued operation that always fails with error 7, budget 1. -/
def c5FailOp : QOp Nat Nat := ⟨1, false, fun _ => Except.error 7⟩

/-- Queued operation that succeeds with result 5. -/
def c5OkOp : QOp Nat Nat := ⟨1, false, fun _ => Except.ok 5⟩

/-- Machine operation used for the completing-step part of the C5 witness. -/
def c5MachineOp : MOp := ⟨2, 1, fun _ => true⟩

/-- State with `c5MachineOp` in flight. -/
def c5PreState : MState := ⟨[], [(c5MachineOp, 1)], true, [Ev.enq 2, Ev.start 2 1]⟩

/-- State after `c5MachineOp` resolves. -/
def c5PostState : MState :=
  ⟨[], [], false, [Ev.enq 2, Ev.start 2 1, Ev.att 2 1, Ev.res 2, Ev.done 2]⟩

/-- C5 witness: the failing head operation's slot rejects with its error, the
succeeding second operation still runs, and a concrete completing step clears
the flag without starting anything else. -/
theorem queue_failure_isolation_witness :
    (processQueue [c5FailOp, c5OkOp])[0]? =
      some (backoffTrace 1, some (Except.error 7)) ∧
    (processQueue [c5FailOp, c5OkOp])[1]? = some (runOp c5OkOp) ∧
    (c5PostState.flag = false ∧ c5PostState.running = [] ∧
      c5PostState.pending = c5PreState.pending) := by
  have h1 := (queue_failure_isolation (ε := Nat) (α := Nat)).1 [c5FailOp, c5OkOp] 0
    c5FailOp (fun _ => 7) rfl (fun _ => rfl) (by decide)
  refine ⟨h1.1, h1.2 1 c5OkOp rfl, ?_⟩
  have hreach : Reachable c5PreState := by
    have r1 : Reachable ⟨[c5MachineOp], [], false, [Ev.enq 2]⟩ :=
      Relation.ReflTransGen.single (Step.enqueue mInit c5MachineOp)
    exact r1.tail (Step.invoke _ c5MachineOp [] rfl rfl)
  exact (queue_failure_isolation (ε := Nat) (α := Nat)).2 c5PreState c5PostState hreach
    (Step.attOk c5PreState c5MachineOp 1 [] rfl (by decide) rfl)
    ⟨[Ev.att 2 1, Ev.res 2, Ev.done 2], rfl, 2, by decide⟩

end Pglite
